import Mathlib

/-!
Verification of the newest-image-tag tag-resolution pipeline (Go, v0.15
variant of `newest-image-tag.go`), shallowly embedded in Lean 4.

Machine strings are Lean `String`s; `time.Time` values are modelled as
integers (nanoseconds since the epoch), with `time.Time.After` as strict
`>` and Go `==` as integer equality.  External library calls
(`json.Unmarshal`, `time.Parse`, the HTTP transport and the redis client)
are passed in as explicit function parameters, so every repository
function is a pure, executable Lean definition.
-/

namespace NewestImageTag

/-- Error values returned by the Go functions (`error` results). -/
inductive GoError where
  | httpStatus (code : Nat)
  | network (msg : String)
  | timeout
  | unmarshal (msg : String)
  | timestampParse (msg : String)
  | wrongManifestVersion
  | cacheBackend (msg : String)
deriving DecidableEq, Repr

/-- Outcome of running a Go function: a returned value, a returned
`error`, or a runtime panic (which in Go is not an `error` return). -/
inductive GoResult (α : Type) where
  | ok (a : α)
  | err (e : GoError)
  | panics (msg : String)
deriving DecidableEq, Repr

/-- `ImageParts` struct: registry host and repository path. -/
structure ImageParts where
  host : String
  path : String
deriving DecidableEq, Repr

/-- `ImageTag` struct: a resolved tag with its creation date and an
optional per-tag error. -/
structure ImageTag where
  tag : String
  date : Int
  err : Option GoError
deriving DecidableEq, Repr

/-- `TagList` struct decoded from the registry tags/list endpoint. -/
structure TagList where
  name : String
  tags : List String
deriving DecidableEq, Repr

/-- `Output` struct: the externally visible result record. -/
structure Output where
  tag : String
  image : String
  imageWithTag : String
deriving DecidableEq, Repr

/-- `ManifestHistoryItem` struct: the decoded `v1Compatibility` blob,
keeping only the `created` field the program reads. -/
structure ManifestHistoryItem where
  created : String
deriving DecidableEq, Repr

/-- `TagManifest` struct; `history` holds the raw `v1Compatibility`
JSON strings. -/
structure TagManifest where
  name : String
  schemaVersion : Int
  history : List String
deriving DecidableEq, Repr

/-- The `dockerRegistryDomain` constant. -/
def dockerRegistryDomain : String := "registry.hub.docker.com"

/-- Go `strings.Split` on a single-character separator, on character
lists.  Always returns at least one (possibly empty) part; splitting the
empty string yields `[[]]`, as in Go. -/
def goSplit (sep : Char) : List Char → List (List Char)
  | [] => [[]]
  | c :: cs =>
    match goSplit sep cs with
    | [] => [[]]
    | p :: ps => if c = sep then [] :: p :: ps else (c :: p) :: ps

/-- Go `strings.Join` with a single-character separator, on character
lists. -/
def goJoin (sep : Char) : List (List Char) → List Char
  | [] => []
  | [p] => p
  | p :: ps => p ++ sep :: goJoin sep ps

/-- `parseImageName` (v0.15): split the raw image name on `/` and apply
the Docker-Hub implicit-host conventions.  The `[]` branch of the match
is unreachable (`goSplit` never returns an empty list); in Go it would
be an index-out-of-range panic on `parts[0]`. -/
def parseImageName (imageName : String) : GoResult ImageParts :=
  match goSplit '/' imageName.toList with
  | [] => .panics "index out of range"
  | [p] => .ok ⟨dockerRegistryDomain, "library/" ++ p.asString⟩
  | p0 :: p1 :: rest =>
    if '.' ∈ p0 then
      .ok ⟨p0.asString, (goJoin '/' (p1 :: rest)).asString⟩
    else
      .ok ⟨dockerRegistryDomain, (goJoin '/' (p0 :: p1 :: rest)).asString⟩

theorem goSplit_ne_nil (sep : Char) (l : List Char) : goSplit sep l ≠ [] := by
  cases l with
  | nil => simp [goSplit]
  | cons c cs =>
    simp only [goSplit]
    cases goSplit sep cs with
    | nil => simp
    | cons p ps =>
      by_cases h : c = sep <;> simp [h]

theorem goSplit_of_not_mem (sep : Char) (l : List Char) (h : sep ∉ l) :
    goSplit sep l = [l] := by
  induction l with
  | nil => rfl
  | cons c cs ih =>
    have hc : c ≠ sep := fun hc => h (hc ▸ List.mem_cons_self c cs)
    have hcs : sep ∉ cs := fun hm => h (List.mem_cons_of_mem c hm)
    simp [goSplit, ih hcs, hc]

theorem goSplit_append (sep : Char) (s1 r : List Char) (h : sep ∉ s1) :
    goSplit sep (s1 ++ sep :: r) = s1 :: goSplit sep r := by
  induction s1 with
  | nil =>
    simp only [List.nil_append, goSplit]
    cases hr : goSplit sep r with
    | nil => exact absurd hr (goSplit_ne_nil sep r)
    | cons p ps => simp
  | cons c cs ih =>
    have hc : c ≠ sep := fun hc => h (hc ▸ List.mem_cons_self c cs)
    have hcs : sep ∉ cs := fun hm => h (List.mem_cons_of_mem c hm)
    simp only [List.cons_append, goSplit, List.append_eq]
    rw [ih hcs]
    simp [hc]

theorem goJoin_goSplit (sep : Char) (l : List Char) :
    goJoin sep (goSplit sep l) = l := by
  induction l with
  | nil => rfl
  | cons c cs ih =>
    simp only [goSplit]
    cases hr : goSplit sep cs with
    | nil => exact absurd hr (goSplit_ne_nil sep cs)
    | cons p ps =>
      rw [hr] at ih
      by_cases hc : c = sep
      · subst hc
        simp only [if_pos rfl, goJoin]
        cases ps <;> simp_all [goJoin]
      · simp only [if_neg hc]
        cases ps with
        | nil => simpa [goJoin] using congrArg (c :: ·) ih
        | cons q qs =>
          simp only [goJoin] at ih ⊢
          rw [← ih]
          simp

/-- The request handed to the HTTP transport: the URL and the optional
basic-auth credentials attached by `httpGet`. -/
structure HTTPRequest where
  url : String
  basicAuth : Option (String × String)
deriving DecidableEq, Repr

instance {ε α : Type} [DecidableEq ε] [DecidableEq α] : DecidableEq (Except ε α) :=
  fun x y =>
    match x, y with
    | .ok a, .ok b => decidable_of_iff (a = b) (by simp)
    | .error a, .error b => decidable_of_iff (a = b) (by simp)
    | .ok _, .error _ => isFalse (by simp)
    | .error _, .ok _ => isFalse (by simp)

/-- What the external transport (`client.Do` plus `ioutil.ReadAll`)
does with a request: a transport error, or a response with a status
code whose body read either fails or yields a string. -/
inductive TransportResult where
  | err (msg : String)
  | resp (statusCode : Nat) (bodyRead : Except String String)
deriving DecidableEq, Repr

/-- `HTTPResponse` struct (v0.15): body, error and status code. -/
structure HTTPResponse where
  body : String
  err : Option GoError
  statusCode : Nat
deriving DecidableEq, Repr

/-- Build the `HTTPResponse` message from the transport's behaviour,
as `httpGet` does after creating the request. -/
def respond (t : TransportResult) : HTTPResponse :=
  match t with
  | .err m => ⟨"", some (.network m), 0⟩
  | .resp code (.error m) => ⟨"", some (.network m), code⟩
  | .resp code (.ok body) => ⟨body, none, code⟩

/-- `httpGet` (v0.15): build a GET request, attach basic auth only when
both the user and the password are non-empty, and run it through the
external transport. -/
def httpGet (url basicAuthUser basicAuthPassword : String)
    (transport : HTTPRequest → TransportResult) : HTTPResponse :=
  let req : HTTPRequest :=
    if basicAuthUser ≠ "" ∧ basicAuthPassword ≠ "" then
      ⟨url, some (basicAuthUser, basicAuthPassword)⟩
    else
      ⟨url, none⟩
  respond (transport req)

/-- Outcome of one attempt of the retry loop, as seen through the
`select` in `retryGetRequest`: either the `httpGet` message arrives
(a transport error, or a status code and body) or the 10-second
timeout fires first. -/
inductive AttemptOutcome where
  | transportErr (msg : String)
  | timeout
  | response (statusCode : Nat) (body : String)
deriving DecidableEq, Repr

/-- The retry loop of `retryGetRequest`, with `fuel` the number of
attempts still allowed (initially `retries + 1`) and `idx` the index of
the current attempt.  Returns the result together with the number of
attempts actually issued.  Status 200 succeeds with the body; status
≥ 500 and the timeout are retried while fuel remains, surfacing the
error once it runs out; any other status and transport errors break the
loop immediately. -/
def retryFrom (attempts : Nat → AttemptOutcome) (idx : Nat) :
    Nat → Except GoError String × Nat
  | 0 => (.error .timeout, 0)
  | 1 =>
    match attempts idx with
    | .transportErr m => (.error (.network m), 1)
    | .timeout => (.error .timeout, 1)
    | .response code body =>
      if code = 200 then (.ok body, 1)
      else (.error (.httpStatus code), 1)
  | fuel + 2 =>
    match attempts idx with
    | .transportErr m => (.error (.network m), 1)
    | .timeout =>
      let r := retryFrom attempts (idx + 1) (fuel + 1)
      (r.1, r.2 + 1)
    | .response code body =>
      if code = 200 then (.ok body, 1)
      else if 500 ≤ code then
        let r := retryFrom attempts (idx + 1) (fuel + 1)
        (r.1, r.2 + 1)
      else (.error (.httpStatus code), 1)

/-- `retryGetRequest` (v0.15): run the loop `for retry := 0; retry <=
*retries; retry++`, i.e. up to `retries + 1` attempts.  The attempt
outcomes are supplied by the environment as a function of the attempt
index. -/
def retryGetRequest (retries : Nat) (attempts : Nat → AttemptOutcome) :
    Except GoError String × Nat :=
  retryFrom attempts 0 (retries + 1)

/-- The loop body of `getNewestManifestHistoryItem`: decode every
`history` entry with `json.Unmarshal` (`um`) and `time.Parse`
RFC3339Nano (`pt`), collecting the decoded creation dates and
returning the first decode error. -/
def collectCreateDates (um : String → Except String ManifestHistoryItem)
    (pt : String → Except String Int) : List String → Except GoError (List Int)
  | [] => .ok []
  | blob :: rest =>
    match um blob with
    | .error e => .error (.unmarshal e)
    | .ok item =>
      match pt item.created with
      | .error e => .error (.timestampParse e)
      | .ok date =>
        match collectCreateDates um pt rest with
        | .error e => .error e
        | .ok ds => .ok (date :: ds)

/-- The comparison `createDates[i].After(createDates[j])` used by
`sort.Slice`: the resulting order is descending by date. -/
def dateDesc (a b : Int) : Prop := b ≤ a

instance : DecidableRel dateDesc := fun a b => Int.decLe b a

instance : IsTotal Int dateDesc := ⟨fun a b => le_total b a⟩

instance : IsTrans Int dateDesc :=
  ⟨fun _ _ _ h1 h2 => le_trans h2 h1⟩

/-- `getNewestManifestHistoryItem` (v0.15): decode all history entries,
sort the dates descending, and return element 0.  On an empty history
the slice is empty and `createDates[0]` is an index-out-of-range
panic. -/
def getNewestManifestHistoryItem (um : String → Except String ManifestHistoryItem)
    (pt : String → Except String Int) (tagManifest : TagManifest) : GoResult Int :=
  match collectCreateDates um pt tagManifest.history with
  | .error e => .err e
  | .ok createDates =>
    match (List.insertionSort dateDesc createDates).head? with
    | none => .panics "index out of range"
    | some d => .ok d

/-- Result of `redisClient.Get(...).Result()` as the code
distinguishes it: the clean miss `redis.Nil`, any other error, or a
hit with the stored string. -/
inductive CacheGetResult where
  | missing
  | failure (msg : String)
  | hit (value : String)
deriving DecidableEq, Repr

/-- Result of resolving one tag in `getTagDateUsingCache`: the
`ImageTag` pushed to the results channel, plus whether a cache write
(`redisClient.Set`) was attempted. -/
structure TagResolution where
  imageTag : ImageTag
  setAttempted : Bool
deriving DecidableEq, Repr

/-- One iteration of the worker loop of `getTagDateUsingCache`
(v0.15), for a single tag.  `cacheGet` is what the redis read returned,
`fetch` what `getTagDate` would return for this tag, `parseCached` the
RFC3339Nano parse of a cached value, and `setResult` the outcome of the
redis write (`none` = ok).  A failed write is only logged; a read
failure that is not `redis.Nil` falls back to the registry and still
writes the cache. -/
def getTagDateUsingCacheStep (cacheEnabled : Bool) (tagName : String)
    (cacheGet : CacheGetResult) (fetch : Except GoError Int)
    (parseCached : String → Except GoError Int)
    (setResult : Option String) : TagResolution :=
  if cacheEnabled then
    match cacheGet with
    | .missing =>
      match fetch with
      | .error e => ⟨⟨tagName, 0, some e⟩, false⟩
      | .ok date =>
        match setResult with
        | _ => ⟨⟨tagName, date, none⟩, true⟩
    | .failure _ =>
      match fetch with
      | .error e => ⟨⟨tagName, 0, some e⟩, false⟩
      | .ok date =>
        match setResult with
        | _ => ⟨⟨tagName, date, none⟩, true⟩
    | .hit value =>
      match parseCached value with
      | .error e => ⟨⟨tagName, 0, some e⟩, false⟩
      | .ok date => ⟨⟨tagName, date, none⟩, false⟩
  else
    match fetch with
    | .error e => ⟨⟨tagName, 0, some e⟩, false⟩
    | .ok date => ⟨⟨tagName, date, none⟩, false⟩

/-- The comparison `tags[i].date.After(tags[j].date)` used by
`sort.Slice` in `getNewestTag`: descending by date. -/
def tagDateDesc (a b : ImageTag) : Prop := b.date ≤ a.date

instance : DecidableRel tagDateDesc := fun a b => Int.decLe b.date a.date

instance : IsTotal ImageTag tagDateDesc := ⟨fun a b => le_total b.date a.date⟩

instance : IsTrans ImageTag tagDateDesc :=
  ⟨fun _ _ _ h1 h2 => le_trans h2 h1⟩

/-- The `sort.Slice(tags, ...)` call in `getNewestTag`. -/
def sortTagsDesc (tags : List ImageTag) : List ImageTag :=
  List.insertionSort tagDateDesc tags

/-- `selectTagFromConflictingTags` (v0.15): collect `tags[0].tag` plus
the name of every differently-named tag whose date equals
`tags[0].date`, sort the names with `sort.Strings`, and return element
0.  On an empty slice, `tags[0]` is an index-out-of-range panic. -/
def selectTagFromConflictingTags : List ImageTag → GoResult String
  | [] => .panics "index out of range"
  | t0 :: rest =>
    let tagList := t0.tag ::
      ((t0 :: rest).filter
        (fun t => t0.tag ≠ t.tag ∧ t0.date = t.date)).map (fun t => t.tag)
    match (List.insertionSort (fun a b : String => a ≤ b) tagList).head? with
    | none => .panics "index out of range"
    | some s => .ok s

/-- The result-draining loop of `getNewestTag`: receive `numJobs`
results in arrival order, returning the first error immediately
(fail-fast) and counting how many results were drained.  Running out of
arrivals models the receive blocking forever; it cannot happen when
every submitted tag produces a result. -/
def drain : Nat → List ImageTag → GoResult (List ImageTag) × Nat
  | 0, _ => (.ok [], 0)
  | _ + 1, [] => (.panics "receive would block forever", 0)
  | n + 1, t :: rest =>
    match t.err with
    | some e => (.err e, 1)
    | none =>
      match drain n rest with
      | (.ok ts, c) => (.ok (t :: ts), c + 1)
      | (.err e, c) => (.err e, c + 1)
      | (.panics m, c) => (.panics m, c + 1)

/-- `getNewestTag` (v0.15) after the tag list has been fetched:
`tagListRes` is what `getTagsList` returned, and `arrival` is the order
in which the workers' results come out of the results channel.  Drains
`len(tagList.Tags)` results, sorts them descending by date, and runs
the tie-break selection. -/
def getNewestTag (image : String) (tagListRes : Except GoError TagList)
    (arrival : List ImageTag) : GoResult Output :=
  match tagListRes with
  | .error e => .err e
  | .ok tagList =>
    match drain tagList.tags.length arrival with
    | (.err e, _) => .err e
    | (.panics m, _) => .panics m
    | (.ok tags, _) =>
      match selectTagFromConflictingTags (sortTagsDesc tags) with
      | .err e => .err e
      | .panics m => .panics m
      | .ok newestTag => .ok ⟨newestTag, image, image ++ ":" ++ newestTag⟩

/-- Specification-side predicate: `d` is the maximum `createdAt` in the
sequence. -/
def isMaxDate (l : List ImageTag) (d : Int) : Prop :=
  (∃ t ∈ l, t.date = d) ∧ ∀ t ∈ l, t.date ≤ d

/-- Specification-side function: the tag names whose `createdAt` equals
`d`. -/
def tiedTags (l : List ImageTag) (d : Int) : List String :=
  (l.filter (fun t => t.date = d)).map (fun t => t.tag)

theorem insertionSort_head_min {α : Type} (r : α → α → Prop) [DecidableRel r]
    [IsTotal α r] [IsTrans α r] (l : List α) (h : l ≠ []) :
    ∃ a t, List.insertionSort r l = a :: t ∧ a ∈ l ∧ ∀ b ∈ l, r a b := by
  cases hs : List.insertionSort r l with
  | nil =>
    have hp := List.perm_insertionSort r l
    rw [hs] at hp
    exact absurd hp.symm.eq_nil h
  | cons a t =>
    have hp := List.perm_insertionSort r l
    rw [hs] at hp
    refine ⟨a, t, rfl, hp.subset (List.mem_cons_self a t), ?_⟩
    intro b hb
    have hb2 : b ∈ a :: t := hp.symm.subset hb
    rcases List.mem_cons.mp hb2 with hba | hbt
    · subst hba
      exact (total_of r b b).elim id id
    · have hsort := List.sorted_insertionSort r l
      rw [hs] at hsort
      exact List.rel_of_sorted_cons hsort b hbt

theorem collectCreateDates_ok (um : String → Except String ManifestHistoryItem)
    (pt : String → Except String Int) (item : String → ManifestHistoryItem)
    (dec : String → Int) :
    ∀ hist : List String,
      (∀ b ∈ hist, um b = .ok (item b) ∧ pt (item b).created = .ok (dec b)) →
      collectCreateDates um pt hist = .ok (hist.map dec)
  | [], _ => rfl
  | blob :: rest, hdec => by
    have h1 := hdec blob (List.mem_cons_self blob rest)
    have h2 := collectCreateDates_ok um pt item dec rest
      (fun b hb => hdec b (List.mem_cons_of_mem blob hb))
    simp [collectCreateDates, h1.1, h1.2, h2]

theorem drain_ok : ∀ l : List ImageTag, (∀ t ∈ l, t.err = none) →
    drain l.length l = (.ok l, l.length)
  | [], _ => rfl
  | t :: rest, h => by
    have ht := h t (List.mem_cons_self t rest)
    have ih := drain_ok rest (fun u hu => h u (List.mem_cons_of_mem t hu))
    simp [drain, ht, ih]

theorem tiedTags_mem (l : List ImageTag) (d : Int) (x : String) :
    x ∈ tiedTags l d ↔ ∃ t ∈ l, t.date = d ∧ t.tag = x := by
  simp only [tiedTags, List.mem_map, List.mem_filter, decide_eq_true_eq]
  tauto

theorem selectNewest_spec (l : List ImageTag) (h : l ≠ []) :
    ∃ d s, isMaxDate l d ∧
      selectTagFromConflictingTags (sortTagsDesc l) = .ok s ∧
      s ∈ tiedTags l d ∧ ∀ x ∈ tiedTags l d, s ≤ x := by
  have hperm : List.Perm (sortTagsDesc l) l := List.perm_insertionSort _ l
  have hsorted : List.Sorted tagDateDesc (sortTagsDesc l) :=
    List.sorted_insertionSort _ l
  cases hs : sortTagsDesc l with
  | nil =>
    rw [hs] at hperm
    exact absurd hperm.symm.eq_nil h
  | cons t0 rest =>
    rw [hs] at hperm hsorted
    have hmax : ∀ t ∈ l, t.date ≤ t0.date := by
      intro t ht
      have hmem : t ∈ t0 :: rest := hperm.symm.subset ht
      rcases List.mem_cons.mp hmem with rfl | hmem2
      · exact le_refl _
      · exact List.rel_of_sorted_cons hsorted t hmem2
    have ht0l : t0 ∈ l := hperm.subset (List.mem_cons_self t0 rest)
    obtain ⟨s, tl2, hsort2, hmem2, hmin2⟩ :=
      insertionSort_head_min (fun a b : String => a ≤ b)
        (t0.tag :: ((t0 :: rest).filter
          (fun t => t0.tag ≠ t.tag ∧ t0.date = t.date)).map (fun t => t.tag))
        (by simp)
    have hsel : selectTagFromConflictingTags (t0 :: rest) = .ok s := by
      simp only [selectTagFromConflictingTags, hsort2, List.head?]
    have hchar : ∀ x, (x ∈ t0.tag :: ((t0 :: rest).filter
        (fun t => t0.tag ≠ t.tag ∧ t0.date = t.date)).map (fun t => t.tag))
        ↔ x ∈ tiedTags l t0.date := by
      intro x
      rw [tiedTags_mem]
      constructor
      · intro hx
        rcases List.mem_cons.mp hx with rfl | hx2
        · exact ⟨t0, ht0l, rfl, rfl⟩
        · rcases List.mem_map.mp hx2 with ⟨t, htf, rfl⟩
          rcases List.mem_filter.mp htf with ⟨htm, hcond⟩
          have hcond2 : t0.tag ≠ t.tag ∧ t0.date = t.date :=
            of_decide_eq_true hcond
          exact ⟨t, hperm.subset htm, hcond2.2.symm, rfl⟩
      · rintro ⟨t, htl, hdate, rfl⟩
        by_cases hx : t.tag = t0.tag
        · rw [hx]; exact List.mem_cons_self _ _
        · refine List.mem_cons_of_mem _ (List.mem_map.mpr ⟨t, ?_, rfl⟩)
          refine List.mem_filter.mpr ⟨hperm.symm.subset htl, ?_⟩
          exact decide_eq_true ⟨fun he => hx he.symm, hdate.symm⟩
    refine ⟨t0.date, s, ⟨⟨t0, ht0l, rfl⟩, hmax⟩, hsel, ?_, ?_⟩
    · exact (hchar s).mp hmem2
    · intro x hx
      exact hmin2 x ((hchar x).mpr hx)

theorem retryFrom_all_503 (attempts : Nat → AttemptOutcome)
    (h : ∀ i, ∃ b, attempts i = .response 503 b) :
    ∀ fuel idx, retryFrom attempts idx (fuel + 1) =
      (.error (.httpStatus 503), fuel + 1) := by
  intro fuel
  induction fuel with
  | zero =>
    intro idx
    obtain ⟨b, hb⟩ := h idx
    simp [retryFrom, hb]
  | succ f ih =>
    intro idx
    obtain ⟨b, hb⟩ := h idx
    simp [retryFrom, hb, ih (idx + 1)]

/-- Claim C1: for every non-empty list of resolved tags, the sort plus
tie-break selection of `getNewestTag` returns the lexicographically
smallest tag name among those whose date equals the maximum date, and
the selected tag is the same for every permutation of the input. -/
theorem tieBreak_lex_smallest_max_perm_invariant (l : List ImageTag) (h : l ≠ []) :
    ∃ d s, isMaxDate l d ∧
      selectTagFromConflictingTags (sortTagsDesc l) = .ok s ∧
      s ∈ tiedTags l d ∧ (∀ x ∈ tiedTags l d, s ≤ x) ∧
      ∀ l2, List.Perm l l2 →
        selectTagFromConflictingTags (sortTagsDesc l2) = .ok s := by
  obtain ⟨d, s, hmaxd, hsel, hmem, hmin⟩ := selectNewest_spec l h
  refine ⟨d, s, hmaxd, hsel, hmem, hmin, ?_⟩
  intro l2 hp
  have h2 : l2 ≠ [] := by
    intro he
    rw [he] at hp
    exact h hp.eq_nil
  obtain ⟨d2, s2, hmaxd2, hsel2, hmem2, hmin2⟩ := selectNewest_spec l2 h2
  have hd : d2 = d := by
    rcases hmaxd with ⟨⟨t, htl, htd⟩, hub⟩
    rcases hmaxd2 with ⟨⟨t2, htl2, htd2⟩, hub2⟩
    have ha : d2 ≤ d := by
      have := hub t2 (hp.symm.subset htl2)
      rwa [htd2] at this
    have hb : d ≤ d2 := by
      have := hub2 t (hp.subset htl)
      rwa [htd] at this
    exact le_antisymm ha hb
  subst hd
  have hsets : ∀ x, x ∈ tiedTags l2 d2 ↔ x ∈ tiedTags l d2 := by
    intro x
    rw [tiedTags_mem, tiedTags_mem]
    constructor
    · rintro ⟨t, htl, ha, hb⟩
      exact ⟨t, hp.symm.subset htl, ha, hb⟩
    · rintro ⟨t, htl, ha, hb⟩
      exact ⟨t, hp.subset htl, ha, hb⟩
  have hss : s2 = s := by
    have ha : s2 ≤ s := hmin2 s ((hsets s).mpr hmem)
    have hb : s ≤ s2 := hmin s2 ((hsets s2).mp hmem2)
    exact le_antisymm ha hb
  rw [hsel2, hss]

/-- Witness for C1: the two-element example with tags "v2" and "v1"
sharing the timestamp 5. -/
theorem tieBreak_witness :
    ([ImageTag.mk "v2" 5 none, ImageTag.mk "v1" 5 none] ≠ []) ∧
    (∃ d s, isMaxDate [ImageTag.mk "v2" 5 none, ImageTag.mk "v1" 5 none] d ∧
      selectTagFromConflictingTags
        (sortTagsDesc [ImageTag.mk "v2" 5 none, ImageTag.mk "v1" 5 none]) = .ok s ∧
      s ∈ tiedTags [ImageTag.mk "v2" 5 none, ImageTag.mk "v1" 5 none] d ∧
      (∀ x ∈ tiedTags [ImageTag.mk "v2" 5 none, ImageTag.mk "v1" 5 none] d, s ≤ x) ∧
      ∀ l2, List.Perm [ImageTag.mk "v2" 5 none, ImageTag.mk "v1" 5 none] l2 →
        selectTagFromConflictingTags (sortTagsDesc l2) = .ok s) :=
  ⟨by simp, tieBreak_lex_smallest_max_perm_invariant _ (by simp)⟩

/-- Claim C2: for the retrying fetcher, a 200 response succeeds with the
body after that single attempt; a status ≥ 500 is retried while budget
remains and surfaces `HTTPStatusError` once it is exhausted; any other
non-200 status surfaces `HTTPStatusError` immediately with no further
attempt; and a registry answering 503 on every attempt yields
`HTTPStatusError 503` after exactly `retries + 1` attempts. -/
theorem retryFetcher_policy (retries : Nat) (attempts : Nat → AttemptOutcome) :
    (∀ idx fuel b, attempts idx = .response 200 b →
      retryFrom attempts idx (fuel + 1) = (.ok b, 1)) ∧
    (∀ idx fuel code b, 500 ≤ code → attempts idx = .response code b →
      retryFrom attempts idx (fuel + 2) =
        ((retryFrom attempts (idx + 1) (fuel + 1)).1,
          (retryFrom attempts (idx + 1) (fuel + 1)).2 + 1)) ∧
    (∀ idx code b, 500 ≤ code → attempts idx = .response code b →
      retryFrom attempts idx 1 = (.error (.httpStatus code), 1)) ∧
    (∀ idx fuel code b, attempts idx = .response code b → code ≠ 200 → code < 500 →
      retryFrom attempts idx (fuel + 1) = (.error (.httpStatus code), 1)) ∧
    ((∀ i, ∃ b, attempts i = .response 503 b) →
      retryGetRequest retries attempts = (.error (.httpStatus 503), retries + 1)) := by
  refine ⟨?_, ?_, ?_, ?_, ?_⟩
  · intro idx fuel b hb
    cases fuel with
    | zero => simp [retryFrom, hb]
    | succ f => simp [retryFrom, hb]
  · intro idx fuel code b hcode hb
    have h200 : code ≠ 200 := by omega
    simp [retryFrom, hb, h200, hcode]
  · intro idx code b hcode hb
    have h200 : code ≠ 200 := by omega
    simp [retryFrom, hb, h200]
  · intro idx fuel code b hb h200 hcode
    have hnot : ¬ 500 ≤ code := by omega
    cases fuel with
    | zero => simp [retryFrom, hb, h200]
    | succ f => simp [retryFrom, hb, h200, hnot]
  · intro h
    exact retryFrom_all_503 attempts h retries 0

/-- Witness for C2: three attempts all answering 503. -/
theorem retryFetcher_witness :
    (∀ i : Nat, ∃ b,
      (fun _ : Nat => AttemptOutcome.response 503 "unavailable") i =
        .response 503 b) ∧
    retryGetRequest 2 (fun _ => .response 503 "unavailable") =
      (.error (.httpStatus 503), 3) :=
  ⟨fun _ => ⟨"unavailable", rfl⟩,
    (retryFetcher_policy 2 (fun _ => .response 503 "unavailable")).2.2.2.2
      (fun _ => ⟨"unavailable", rfl⟩)⟩

/-- Claim C3: on a manifest with non-empty history whose entries all
decode, `getNewestManifestHistoryItem` returns the maximum decoded
creation date, invariantly under any reordering of the history. -/
theorem newestTimestamp_is_max_perm_invariant
    (um : String → Except String ManifestHistoryItem)
    (pt : String → Except String Int) (m : TagManifest)
    (item : String → ManifestHistoryItem) (dec : String → Int)
    (hne : m.history ≠ [])
    (hdec : ∀ b ∈ m.history,
      um b = .ok (item b) ∧ pt (item b).created = .ok (dec b)) :
    ∃ d, getNewestManifestHistoryItem um pt m = .ok d ∧
      d ∈ m.history.map dec ∧ (∀ x ∈ m.history.map dec, x ≤ d) ∧
      ∀ hist2, List.Perm hist2 m.history →
        getNewestManifestHistoryItem um pt ⟨m.name, m.schemaVersion, hist2⟩ =
          .ok d := by
  have hc := collectCreateDates_ok um pt item dec m.history hdec
  have hmapne : m.history.map dec ≠ [] := by simpa using hne
  obtain ⟨a, t, hsort, hmem, hmax⟩ :=
    insertionSort_head_min dateDesc (m.history.map dec) hmapne
  refine ⟨a, ?_, hmem, fun x hx => hmax x hx, ?_⟩
  · simp [getNewestManifestHistoryItem, hc, hsort]
  · intro hist2 hp
    have hdec2 : ∀ b ∈ hist2,
        um b = .ok (item b) ∧ pt (item b).created = .ok (dec b) :=
      fun b hb => hdec b (hp.subset hb)
    have hc2 := collectCreateDates_ok um pt item dec hist2 hdec2
    have hmapne2 : hist2.map dec ≠ [] := by
      intro he
      rw [List.map_eq_nil_iff] at he
      rw [he] at hp
      exact hne hp.symm.eq_nil
    obtain ⟨a2, t2, hsort2, hmem2, hmax2⟩ :=
      insertionSort_head_min dateDesc (hist2.map dec) hmapne2
    have hpm : List.Perm (hist2.map dec) (m.history.map dec) := hp.map dec
    have ha2 : a2 = a :=
      le_antisymm (hmax a2 (hpm.subset hmem2)) (hmax2 a (hpm.symm.subset hmem))
    simp [getNewestManifestHistoryItem, hc2, hsort2, ha2]

/-- Witness for C3: a two-entry history decoding to dates 3 and 7. -/
theorem newestTimestamp_witness :
    ((["a", "b"] : List String) ≠ []) ∧
    (∀ b ∈ (["a", "b"] : List String),
      (fun s => (Except.ok ⟨s⟩ : Except String ManifestHistoryItem)) b =
        .ok ((fun s => ManifestHistoryItem.mk s) b) ∧
      (fun s => (Except.ok (if s = "a" then 3 else 7) : Except String Int))
        ((fun s => ManifestHistoryItem.mk s) b).created =
        .ok ((fun s => if s = "a" then (3 : Int) else 7) b)) ∧
    (∃ d, getNewestManifestHistoryItem
        (fun s => .ok ⟨s⟩) (fun s => .ok (if s = "a" then 3 else 7))
        ⟨"repo", 1, ["a", "b"]⟩ = .ok d ∧
      d ∈ (["a", "b"] : List String).map (fun s => if s = "a" then (3 : Int) else 7) ∧
      (∀ x ∈ (["a", "b"] : List String).map
          (fun s => if s = "a" then (3 : Int) else 7), x ≤ d) ∧
      ∀ hist2, List.Perm hist2 ["a", "b"] →
        getNewestManifestHistoryItem
          (fun s => .ok ⟨s⟩) (fun s => .ok (if s = "a" then 3 else 7))
          ⟨"repo", 1, hist2⟩ = .ok d) :=
  ⟨by simp, fun b _ => ⟨rfl, rfl⟩,
    newestTimestamp_is_max_perm_invariant
      (fun s => .ok ⟨s⟩) (fun s => .ok (if s = "a" then 3 else 7))
      ⟨"repo", 1, ["a", "b"]⟩ (fun s => ManifestHistoryItem.mk s)
      (fun s => if s = "a" then (3 : Int) else 7)
      (by simp) (fun b _ => ⟨rfl, rfl⟩)⟩

/-- Claim C4 (code bug): with an empty tag list, `getNewestTag` does not
return an `EmptyTagListError`-style error; it drains zero results and
then panics with an index-out-of-range in `selectTagFromConflictingTags`
(`tags[0]` on an empty slice), whatever results arrive. -/
theorem emptyTagList_panics (image name : String) (arrival : List ImageTag) :
    getNewestTag image (.ok ⟨name, []⟩) arrival = .panics "index out of range" :=
  rfl

/-- Claim C5 (code bug): on a manifest with an empty history,
`getNewestManifestHistoryItem` does not return an error; it panics with
an index-out-of-range on `createDates[0]`. -/
theorem emptyHistory_panics (um : String → Except String ManifestHistoryItem)
    (pt : String → Except String Int) (name : String) (sv : Int) :
    getNewestManifestHistoryItem um pt ⟨name, sv, []⟩ =
      .panics "index out of range" :=
  rfl

/-- Counterexample for C6: `parseImageName` does not fail on the empty
input; it succeeds with the Docker Hub host and path "library/". -/
theorem parse_empty_succeeds :
    parseImageName "" = .ok ⟨dockerRegistryDomain, "library/"⟩ ∧
    ∀ e, parseImageName "" ≠ .err e := by
  have h1 : parseImageName "" = .ok ⟨dockerRegistryDomain, "library/"⟩ := rfl
  exact ⟨h1, fun e h => by rw [h1] at h; exact GoResult.noConfusion h⟩

/-- Claim C6 as amended: `parseImageName` never fails; it succeeds on
every input string, including the empty string. -/
theorem parse_never_fails (imageName : String) :
    ∃ p, parseImageName imageName = .ok p := by
  unfold parseImageName
  cases hgs : goSplit '/' imageName.toList with
  | nil => exact absurd hgs (goSplit_ne_nil _ _)
  | cons p ps =>
    cases ps with
    | nil => exact ⟨_, rfl⟩
    | cons q qs =>
      dsimp only
      by_cases hd : '.' ∈ p
      · rw [if_pos hd]
        exact ⟨_, rfl⟩
      · rw [if_neg hd]
        exact ⟨_, rfl⟩

/-- Claim C7: `parseImageName` maps a slash-free name to the Docker Hub
host with path "library/" + name; a reference whose first segment
contains a dot to that segment as host with the remainder as path; and
a multi-segment reference without a dot in the first segment to the
Docker Hub host with the whole reference as path. -/
theorem parse_host_path_rules (imageName : String) :
    (('/' ∉ imageName.toList) →
      parseImageName imageName =
        .ok ⟨dockerRegistryDomain, "library/" ++ imageName⟩) ∧
    (∀ seg1 rest, imageName.toList = seg1 ++ '/' :: rest → '/' ∉ seg1 →
      '.' ∈ seg1 →
      parseImageName imageName = .ok ⟨seg1.asString, rest.asString⟩) ∧
    (∀ seg1 rest, imageName.toList = seg1 ++ '/' :: rest → '/' ∉ seg1 →
      '.' ∉ seg1 →
      parseImageName imageName = .ok ⟨dockerRegistryDomain, imageName⟩) := by
  refine ⟨?_, ?_, ?_⟩
  · intro h
    have hgs : goSplit '/' imageName.toList = [imageName.toList] :=
      goSplit_of_not_mem _ _ h
    unfold parseImageName
    rw [hgs]
    dsimp only
    rw [String.asString_toList]
  · intro seg1 rest heq h1 hdot
    have hgs : goSplit '/' imageName.toList = seg1 :: goSplit '/' rest := by
      rw [heq]
      exact goSplit_append '/' seg1 rest h1
    cases hr : goSplit '/' rest with
    | nil => exact absurd hr (goSplit_ne_nil _ _)
    | cons q qs =>
      rw [hr] at hgs
      have hjoin : goJoin '/' (q :: qs) = rest := by
        rw [← hr]
        exact goJoin_goSplit '/' rest
      unfold parseImageName
      rw [hgs]
      dsimp only
      rw [if_pos hdot, hjoin]
  · intro seg1 rest heq h1 hdot
    have hgs : goSplit '/' imageName.toList = seg1 :: goSplit '/' rest := by
      rw [heq]
      exact goSplit_append '/' seg1 rest h1
    cases hr : goSplit '/' rest with
    | nil => exact absurd hr (goSplit_ne_nil _ _)
    | cons q qs =>
      rw [hr] at hgs
      have hjoin : goJoin '/' (seg1 :: q :: qs) = imageName.toList := by
        have hqr : goJoin '/' (q :: qs) = rest := by
          rw [← hr]
          exact goJoin_goSplit '/' rest
        rw [heq]
        simp [goJoin, hqr]
      unfold parseImageName
      rw [hgs]
      dsimp only
      rw [if_neg hdot, hjoin, String.asString_toList]

/-- Witness for C7: the explicit-registry reference
"example.com/ns/app". -/
theorem parse_host_path_witness :
    ("example.com/ns/app".toList =
      "example.com".toList ++ '/' :: "ns/app".toList) ∧
    ('/' ∉ "example.com".toList) ∧ ('.' ∈ "example.com".toList) ∧
    parseImageName "example.com/ns/app" =
      .ok ⟨("example.com".toList).asString, ("ns/app".toList).asString⟩ :=
  ⟨by decide, by decide, by decide,
    (parse_host_path_rules "example.com/ns/app").2.1
      "example.com".toList "ns/app".toList (by decide) (by decide) (by decide)⟩

/-- Claim C8: with caching enabled, a cache read failure that is not a
clean miss behaves exactly like a miss (registry fetch plus a cache
repopulation attempt), a successful fetch after such a failure resolves
the tag with the fresh date, and the outcome of the cache write never
changes the resolution. -/
theorem cacheFailure_nonfatal (tagName : String) (e : String)
    (fetch : Except GoError Int) (parseCached : String → Except GoError Int)
    (s1 s2 : Option String) :
    (getTagDateUsingCacheStep true tagName (.failure e) fetch parseCached s1 =
      getTagDateUsingCacheStep true tagName .missing fetch parseCached s1) ∧
    (∀ d, fetch = .ok d →
      getTagDateUsingCacheStep true tagName (.failure e) fetch parseCached s1 =
        ⟨⟨tagName, d, none⟩, true⟩) ∧
    (∀ g, getTagDateUsingCacheStep true tagName g fetch parseCached s1 =
      getTagDateUsingCacheStep true tagName g fetch parseCached s2) := by
  refine ⟨?_, ?_, ?_⟩
  · cases fetch <;> rfl
  · intro d hd
    subst hd
    rfl
  · intro g
    cases g <;> cases fetch <;> rfl

/-- Witness for C8: backend unreachable, fresh fetch succeeds with
date 42, cache write fails. -/
theorem cacheFailure_witness :
    ((Except.ok 42 : Except GoError Int) = .ok 42) ∧
    getTagDateUsingCacheStep true "v1" (.failure "connection refused")
        (.ok 42) (fun _ => .ok 0) (some "write failed") =
      ⟨⟨"v1", 42, none⟩, true⟩ :=
  ⟨rfl, (cacheFailure_nonfatal "v1" "connection refused" (.ok 42)
    (fun _ => .ok 0) (some "write failed") none).2.1 42 rfl⟩

/-- Claim C9 as amended: when every resolved tag carries no error, the
orchestrator drains exactly `len(tagList.tags)` results — one per
submitted tag, whatever the arrival order — before finishing; with the
counterexample showing the fail-fast early return on an error result. -/
theorem resolver_drains_all_on_success (tagList : TagList)
    (resolve : String → ImageTag) (arrival : List ImageTag)
    (hperm : List.Perm arrival (tagList.tags.map resolve))
    (hok : ∀ t ∈ tagList.tags, (resolve t).err = none) :
    drain tagList.tags.length arrival = (.ok arrival, tagList.tags.length) ∧
    List.Perm (arrival.map (fun t => t.tag))
      (tagList.tags.map (fun s => (resolve s).tag)) := by
  have hlen : arrival.length = tagList.tags.length := by
    rw [hperm.length_eq, List.length_map]
  have hall : ∀ t ∈ arrival, t.err = none := by
    intro t ht
    rcases List.mem_map.mp (hperm.subset ht) with ⟨s, hs, rfl⟩
    exact hok s hs
  constructor
  · rw [← hlen]
    exact drain_ok arrival hall
  · have h := hperm.map (fun t => t.tag)
    simpa [List.map_map, Function.comp] using h

/-- Counterexample for C9: with tag list ["a", "b"] and the result for
"a" carrying an error arriving first, the orchestrator finishes after
draining one result, not `len(tagList.tags) = 2`. -/
theorem resolver_drain_counterexample :
    getNewestTag "img" (.ok ⟨"repo", ["a", "b"]⟩)
        [ImageTag.mk "a" 0 (some (.network "boom")), ImageTag.mk "b" 1 none] =
      .err (.network "boom") ∧
    (drain 2 [ImageTag.mk "a" 0 (some (.network "boom")),
      ImageTag.mk "b" 1 none]).2 = 1 ∧
    (1 : Nat) ≠ 2 :=
  ⟨rfl, rfl, by decide⟩

/-- Witness for C9 (amended): two tags, both resolving cleanly. -/
theorem resolver_drains_witness :
    drain 2 [ImageTag.mk "a" 3 none, ImageTag.mk "b" 3 none] =
      (.ok [ImageTag.mk "a" 3 none, ImageTag.mk "b" 3 none], 2) ∧
    List.Perm
      ([ImageTag.mk "a" 3 none, ImageTag.mk "b" 3 none].map (fun t => t.tag))
      (["a", "b"].map (fun s => (ImageTag.mk s 3 none).tag)) := by
  have h := resolver_drains_all_on_success ⟨"repo", ["a", "b"]⟩
    (fun s => ImageTag.mk s 3 none)
    [ImageTag.mk "a" 3 none, ImageTag.mk "b" 3 none]
    (List.Perm.refl _) (fun t _ => rfl)
  simpa using h

/-- Claim C10: `httpGet` attaches basic-auth credentials only when both
user and password are non-empty; with either empty, the GET is still
issued through the transport, carrying no credentials. -/
theorem httpGet_auth_only_when_both (url user pass : String)
    (transport : HTTPRequest → TransportResult) :
    ((user = "" ∨ pass = "") →
      httpGet url user pass transport = respond (transport ⟨url, none⟩)) ∧
    (user ≠ "" → pass ≠ "" →
      httpGet url user pass transport =
        respond (transport ⟨url, some (user, pass)⟩)) := by
  constructor
  · intro h
    have hn : ¬ (user ≠ "" ∧ pass ≠ "") := by tauto
    simp [httpGet, hn]
  · intro h1 h2
    simp [httpGet, h1, h2]

/-- Witness for C10: an empty user with a non-empty password issues an
unauthenticated GET. -/
theorem httpGet_auth_witness :
    (("" : String) = "" ∨ ("anonymous" : String) = "") ∧
    httpGet "https://registry.hub.docker.com/v2/library/nginx/tags/list"
        "" "anonymous" (fun _ => .resp 200 (.ok "{}")) =
      respond ((fun _ : HTTPRequest => TransportResult.resp 200 (.ok "{}"))
        ⟨"https://registry.hub.docker.com/v2/library/nginx/tags/list", none⟩) :=
  ⟨Or.inl rfl,
    (httpGet_auth_only_when_both
      "https://registry.hub.docker.com/v2/library/nginx/tags/list"
      "" "anonymous" (fun _ => .resp 200 (.ok "{}"))).1 (Or.inl rfl)⟩

end NewestImageTag
